import Mathlib

/-!
Verification of `dupfinder.py`: a three-pass duplicate-file finder.

The embedding models the four functions of the source file:

* `hasher` — hashes each file of a list, reading either the first
  `scansize` bytes (one `read(scansize)` call) or, for `scansize = 0`,
  the whole file in 4096-byte chunks.  An unreadable file raises; the
  exception is modelled by `Except.error` carrying the failing path.
* `filewalker` — filters the output of `os.walk` by directory-path
  substring exclusion and yields the joined file paths.  `os.walk`
  itself is Python library code, so the walk output is a parameter:
  a list of `(dirpath, dirnames, filenames)` triples.
* `duplicates` — groups `(digest, path)` pairs into the `candidates`
  and `duplicates` insertion-ordered dictionaries.
* `dupfinder` — runs three `duplicates` passes at scan sizes
  `SCANSIZE`, `100 * SCANSIZE` and `0`, flattening the groups of one
  pass into the file list of the next.

Python byte strings are `List Nat`, file contents are provided by a
partial map `fs : String → Option (List Nat)` (with `none` meaning the
open/read raises `IOError`), and the hash function is an abstract
`hf : List Nat → D`; incremental `update` calls over chunks hash the
concatenation of the chunks, which is how `hashlib` digests behave.
Python dictionaries are insertion-ordered association lists.
-/

namespace DupFind

variable {D : Type} [DecidableEq D]

/-- Lookup in an insertion-ordered association list (Python `d[k]` /
`k in d`): the first pair whose key matches. -/
def getA {α β : Type} [DecidableEq α] : List (α × β) → α → Option β
  | [], _ => none
  | (k0, v0) :: t, k => if k = k0 then some v0 else getA t k

/-- Assignment `d[k] = v` on an insertion-ordered association list:
replace the value in place when the key is present, otherwise append
the new pair at the end, exactly as a Python dict does. -/
def setA {α β : Type} [DecidableEq α] : List (α × β) → α → β → List (α × β)
  | [], k, v => [(k, v)]
  | (k0, v0) :: t, k, v => if k = k0 then (k, v) :: t else (k0, v0) :: setA t k v

/-- The keys of an association list, in insertion order. -/
def keysA {α β : Type} (l : List (α × β)) : List α := l.map Prod.fst

/-- The accumulation loop of `duplicates` (`src/dupfinder.py` lines
121–127): for each incoming `(hash, filename)` pair, append to an
existing duplicate group, or promote a lone candidate into a new
two-element group, or record the path as the lone candidate of its
digest.  `cands` and `dups` are the `candidates` and `duplicates`
dictionaries; the function returns the final `duplicates` dictionary. -/
def grouper : List (D × String) → List (D × String) → List (D × List String) →
    List (D × List String)
  | [], _, dups => dups
  | (h, fn) :: rest, cands, dups =>
    match getA dups h with
    | some g => grouper rest cands (setA dups h (g ++ [fn]))
    | none =>
      match getA cands h with
      | some c => grouper rest cands (setA dups h [c, fn])
      | none => grouper rest (setA cands h fn) dups

/-- The paths paired with digest `h` in a `(digest, path)` sequence, in
arrival order. -/
def pathsFor (h : D) (ps : List (D × String)) : List String :=
  (ps.filter (fun q => decide (q.1 = h))).map Prod.snd

/-- What a lookup in the final `duplicates` dictionary returns, as a
function of the initial entries for the digest and of the paths still
to arrive with that digest. -/
def lookSpec (cOpt : Option String) (dOpt : Option (List String))
    (tail : List String) : Option (List String) :=
  match dOpt with
  | some g => some (g ++ tail)
  | none =>
    match cOpt with
    | some c => if tail = [] then none else some (c :: tail)
    | none => if tail.length ≤ 1 then none else some tail

/-- The successive blocks returned by `file.read(4096)` in the
`scansize = 0` branch of `hasher`: each call returns the next at most
4096 bytes, until the empty read ends the loop. -/
def chunked (c : List Nat) : List (List Nat) :=
  if c = [] then [] else c.take 4096 :: chunked (c.drop 4096)
termination_by c.length
decreasing_by
  rename_i hc
  have hpos : 0 < c.length := List.length_pos.mpr hc
  simp [List.length_drop]
  omega

/-- The digest `hasher` computes for one file with contents `c`
(`src/dupfinder.py` lines 61–68): for nonzero `scansize`, hash the
single `file.read(scansize)` result, i.e. the first `scansize` bytes
(fewer when the file is shorter); for `scansize = 0`, feed the
4096-byte blocks to the incremental hash, whose digest is the hash of
their concatenation. -/
def fileDigest {E : Type} (hf : List Nat → E) (scansize : Nat) (c : List Nat) : E :=
  if scansize ≠ 0 then hf (c.take scansize) else hf (chunked c).flatten

/-- `hasher` (`src/dupfinder.py` lines 41–69): yield `(digest, path)`
pairs for the files in order.  `fs` maps a path to its byte contents,
`none` meaning `open`/`read` raises `IOError`; the exception aborts
the generator and every consumer, modelled by `Except.error` carrying
the failing path. -/
def hasher {E : Type} (fs : String → Option (List Nat)) (scansize : Nat)
    (hf : List Nat → E) : List String → Except String (List (E × String))
  | [] => .ok []
  | f :: rest =>
    match fs f with
    | none => .error f
    | some c =>
      match hasher fs scansize hf rest with
      | .error e => .error e
      | .ok l => .ok ((fileDigest hf scansize c, f) :: l)

/-- `duplicates` (`src/dupfinder.py` lines 96–128): run `hasher` over
the files and fold the `(hash, filename)` pairs through the
candidate/duplicate-group loop, returning the `duplicates`
dictionary.  A raised `IOError` propagates. -/
def duplicates (fs : String → Option (List Nat)) (scansize : Nat)
    (hf : List Nat → D) (files : List String) :
    Except String (List (D × List String)) :=
  match hasher fs scansize hf files with
  | .error e => .error e
  | .ok ps => .ok (grouper ps [] [])

/-- One disk block (`src/dupfinder.py` line 39). -/
def SCANSIZE : Nat := 4096

/-- The generator `(file for files in dups.values() for file in files)`:
all group members of a pass result, groups in dictionary insertion
order, members in list order. -/
def flattenG {E : Type} (d : List (E × List String)) : List String :=
  (d.map Prod.snd).flatten

/-- The three-pass pipeline of `dupfinder` (`src/dupfinder.py` lines
150–162) with the two prefix scan sizes as parameters: pass one at
`s1`, pass two at `s2` over the flattened pass-one groups, pass three
over the whole files, returning the third `duplicates` dictionary.  A
raised `IOError` propagates out of the whole run. -/
def dupfinderGen (fs : String → Option (List Nat)) (hf : List Nat → D)
    (s1 s2 : Nat) (files : List String) :
    Except String (List (D × List String)) :=
  match duplicates fs s1 hf files with
  | .error e => .error e
  | .ok d1 =>
    match duplicates fs s2 hf (flattenG d1) with
    | .error e => .error e
    | .ok d2 => duplicates fs 0 hf (flattenG d2)

/-- `dupfinder` on an enumerated file list: scan sizes `SCANSIZE` and
`100 * SCANSIZE`, then the full files.  The digest function stands for
`sha256`. -/
def dupfinder (fs : String → Option (List Nat)) (hf : List Nat → D)
    (files : List String) : Except String (List (D × List String)) :=
  dupfinderGen fs hf SCANSIZE (100 * SCANSIZE) files

/-- An independent description of a chain of passes: run `duplicates`
at each scan size in turn, flattening the resulting groups into the
next pass's file list, and return the mapping of the last pass. -/
def runStages (fs : String → Option (List Nat)) (hf : List Nat → D) :
    List Nat → List String → Except String (List (D × List String))
  | [], _ => .ok []
  | s :: rest, files =>
    match duplicates fs s hf files with
    | .error e => .error e
    | .ok d => if rest.isEmpty then .ok d else runStages fs hf rest (flattenG d)

/-- The digest `hasher` computes for path `f` (unreadable files get the
digest of the empty byte string; the value is only used under a
readability hypothesis). -/
def digestOf {E : Type} (fs : String → Option (List Nat)) (hf : List Nat → E)
    (scansize : Nat) (f : String) : E :=
  fileDigest hf scansize ((fs f).getD [])

/-- The `(digest, path)` sequence `hasher` yields when every file is
readable. -/
def hasherPairs {E : Type} (fs : String → Option (List Nat)) (hf : List Nat → E)
    (scansize : Nat) (files : List String) : List (E × String) :=
  files.map (fun f => (digestOf fs hf scansize f, f))

/-- The files of a list sharing the digest `h` at scan size `s`, in
list order. -/
def sameDigest (fs : String → Option (List Nat)) (hf : List Nat → D)
    (s : Nat) (h : D) (files : List String) : List String :=
  files.filter (fun f => decide (digestOf fs hf s f = h))

/-- Whether the pattern is an initial run of the character list. -/
def leadsL : List Char → List Char → Bool
  | [], _ => true
  | _ :: _, [] => false
  | p :: ps, c :: cs => decide (p = c) && leadsL ps cs

/-- Whether the pattern occurs contiguously somewhere in the character
list: Python's substring containment `pat in s`. -/
def occursIn (pat : List Char) : List Char → Bool
  | [] => leadsL pat []
  | c :: cs => leadsL pat (c :: cs) || occursIn pat cs

/-- Python `e in dirpath` on strings: substring containment. -/
def substrB (e s : String) : Bool := occursIn e.data s.data

/-- `os.path.join(dirpath, f)` for a relative name. -/
def pjoin (dp f : String) : String := dp ++ "/" ++ f

/-- The guard `exclude and any(e in dirpath for e in exclude)` of
`filewalker` (`src/dupfinder.py` line 88): a `None` or empty exclusion
list is falsy and disables the check; otherwise some exclusion string
must occur in the directory path. -/
def excludeMatches (exclude : Option (List String)) (dirpath : String) : Bool :=
  match exclude with
  | none => false
  | some es => !es.isEmpty && es.any (fun e => substrB e dirpath)

/-- What one `os.walk` entry `(dirpath, dirnames, filenames)`
contributes to the `filewalker` output (`src/dupfinder.py` lines
87–94): nothing when the exclusion guard fires, otherwise the joined
paths of the filenames that are regular files. -/
def entryFiles (exclude : Option (List String)) (isfile : String → Bool)
    (ent : String × List String × List String) : List String :=
  if excludeMatches exclude ent.1 then []
  else (ent.2.2.map (fun f => pjoin ent.1 f)).filter isfile

/-- `filewalker` over a given `os.walk` output sequence: the
concatenation of the per-directory contributions, in walk order. -/
def filewalker (walkOut : List (String × List String × List String))
    (exclude : Option (List String)) (isfile : String → Bool) : List String :=
  (walkOut.map (entryFiles exclude isfile)).flatten

/-- The enumeration with the exclusion guard disabled: every regular
file of every walked directory. -/
def allFiles (walkOut : List (String × List String × List String))
    (isfile : String → Bool) : List String :=
  (walkOut.map (fun ent => (ent.2.2.map (fun f => pjoin ent.1 f)).filter isfile)).flatten

/-- Witness fixture: two identical one-byte files `a` and `b`. -/
def fsTwin : String → Option (List Nat) :=
  fun f => if f = "a" ∨ f = "b" then some [7] else none

/-- Witness fixture: `b` raises on open, the other paths read fine. -/
def fsErr : String → Option (List Nat) :=
  fun f => if f = "b" then none else some [1]

/-- Witness fixture: `a` and `b` agree on their first 4096 bytes (all
zero) but have different lengths, so their full contents differ. -/
def fsLong : String → Option (List Nat) :=
  fun f => if f = "a" then some (List.replicate 4097 0)
    else if f = "b" then some (List.replicate 4098 0) else none

/-- Witness fixture: `a` and `b` hold different single bytes. -/
def fsDiff : String → Option (List Nat) :=
  fun f => if f = "a" then some [1] else if f = "b" then some [2] else none

/-- Witness fixture: an `os.walk` output with a directory `x` and its
subdirectory `x/s`, holding one file each. -/
def walkW : List (String × List String × List String) :=
  [("x", ["s"], ["f"]), ("x/s", [], ["g"])]

section Dict

variable {α β : Type} [DecidableEq α]

theorem getA_setA_self (l : List (α × β)) (k : α) (v : β) :
    getA (setA l k v) k = some v := by
  induction l with
  | nil => simp [getA, setA]
  | cons p t ih =>
    obtain ⟨k0, v0⟩ := p
    by_cases hk : k = k0 <;> simp [getA, setA, hk, ih]

theorem getA_setA_ne (l : List (α × β)) (k k' : α) (v : β) (h : k' ≠ k) :
    getA (setA l k v) k' = getA l k' := by
  induction l with
  | nil => simp [getA, setA, h]
  | cons p t ih =>
    obtain ⟨k0, v0⟩ := p
    by_cases hk : k = k0
    · subst hk
      simp [getA, setA, h]
    · by_cases hk' : k' = k0 <;> simp [getA, setA, hk, hk', ih]

theorem getA_eq_none_iff (l : List (α × β)) (k : α) :
    getA l k = none ↔ k ∉ keysA l := by
  induction l with
  | nil => simp [getA, keysA]
  | cons p t ih =>
    obtain ⟨k0, v0⟩ := p
    by_cases hk : k = k0 <;> simp [getA, keysA, hk] <;> simpa [keysA] using ih

theorem keysA_setA_of_mem (l : List (α × β)) (k : α) (v : β) (h : k ∈ keysA l) :
    keysA (setA l k v) = keysA l := by
  induction l with
  | nil => simp [keysA] at h
  | cons p t ih =>
    obtain ⟨k0, v0⟩ := p
    by_cases hk : k = k0
    · simp [setA, keysA, hk]
    · have ht : k ∈ keysA t := by
        rcases (by simpa [keysA] using h) with h1 | h1
        · exact absurd h1 hk
        · simpa [keysA] using h1
      simp [setA, keysA, hk]
      simpa [keysA] using ih ht

theorem keysA_setA_of_not_mem (l : List (α × β)) (k : α) (v : β) (h : k ∉ keysA l) :
    keysA (setA l k v) = keysA l ++ [k] := by
  induction l with
  | nil => simp [setA, keysA]
  | cons p t ih =>
    obtain ⟨k0, v0⟩ := p
    have hk : k ≠ k0 := by
      intro hkk
      exact h (by simp [keysA, hkk])
    have ht : k ∉ keysA t := by
      intro hkk
      exact h (by simp [keysA]; exact Or.inr (by simpa [keysA] using hkk))
    simp [setA, keysA, hk]
    simpa [keysA] using ih ht

theorem getA_mem (l : List (α × β)) (k : α) (v : β) (h : getA l k = some v) :
    (k, v) ∈ l := by
  induction l with
  | nil => simp [getA] at h
  | cons p t ih =>
    obtain ⟨k0, v0⟩ := p
    by_cases hk : k = k0
    · simp [getA, hk] at h
      simp [hk, h]
    · simp [getA, hk] at h
      exact List.mem_cons_of_mem _ (ih h)

theorem getA_of_mem_nodup (l : List (α × β)) (k : α) (v : β)
    (hnd : (keysA l).Nodup) (h : (k, v) ∈ l) : getA l k = some v := by
  induction l with
  | nil => simp at h
  | cons p t ih =>
    obtain ⟨k0, v0⟩ := p
    have hhead : k0 ∉ List.map Prod.fst t ∧ (List.map Prod.fst t).Nodup := by
      simpa [keysA] using hnd
    rcases List.mem_cons.mp h with h1 | h1
    · rw [Prod.mk.injEq] at h1
      simp [getA, h1.1, h1.2]
    · have hk0 : k ≠ k0 := by
        intro hkk
        subst hkk
        exact hhead.1 (by simpa using List.mem_map_of_mem Prod.fst h1)
      simp [getA, hk0]
      exact ih (by simpa [keysA] using hhead.2) h1

end Dict

section Grouping

theorem pathsFor_nil (h : D) : pathsFor h ([] : List (D × String)) = [] := rfl

theorem pathsFor_cons (h h0 : D) (f0 : String) (rest : List (D × String)) :
    pathsFor h ((h0, f0) :: rest) =
      if h0 = h then f0 :: pathsFor h rest else pathsFor h rest := by
  by_cases hh : h0 = h <;> simp [pathsFor, List.filter_cons, hh]

theorem grouper_getA (ps : List (D × String)) :
    ∀ (cands : List (D × String)) (dups : List (D × List String)) (h : D),
      getA (grouper ps cands dups) h =
        lookSpec (getA cands h) (getA dups h) (pathsFor h ps) := by
  induction ps with
  | nil =>
    intro cands dups h
    cases hd : getA dups h <;> cases hc : getA cands h <;>
      simp [grouper, lookSpec, pathsFor_nil, hd, hc]
  | cons p rest ih =>
    intro cands dups h
    obtain ⟨h0, f0⟩ := p
    by_cases hh : h0 = h
    · subst hh
      cases hd : getA dups h0 with
      | some g0 =>
        have e1 : grouper ((h0, f0) :: rest) cands dups =
            grouper rest cands (setA dups h0 (g0 ++ [f0])) := by simp [grouper, hd]
        rw [e1, ih]
        simp [getA_setA_self, hd, pathsFor_cons, lookSpec]
      | none =>
        cases hc : getA cands h0 with
        | some c0 =>
          have e1 : grouper ((h0, f0) :: rest) cands dups =
              grouper rest cands (setA dups h0 [c0, f0]) := by simp [grouper, hd, hc]
          rw [e1, ih]
          simp [getA_setA_self, hd, hc, pathsFor_cons, lookSpec]
        | none =>
          have e1 : grouper ((h0, f0) :: rest) cands dups =
              grouper rest (setA cands h0 f0) dups := by simp [grouper, hd, hc]
          rw [e1, ih]
          cases ht : pathsFor h0 rest with
          | nil => simp [getA_setA_self, hd, hc, pathsFor_cons, ht, lookSpec]
          | cons x xs =>
            simp [getA_setA_self, hd, hc, pathsFor_cons, ht, lookSpec,
              Nat.succ_le_succ_iff]
    · have hne : h ≠ h0 := fun he => hh he.symm
      have hps : pathsFor h ((h0, f0) :: rest) = pathsFor h rest := by
        rw [pathsFor_cons]
        simp [hh]
      cases hd : getA dups h0 with
      | some g0 =>
        have e1 : grouper ((h0, f0) :: rest) cands dups =
            grouper rest cands (setA dups h0 (g0 ++ [f0])) := by simp [grouper, hd]
        rw [e1, ih, getA_setA_ne _ _ _ _ hne, hps]
      | none =>
        cases hc : getA cands h0 with
        | some c0 =>
          have e1 : grouper ((h0, f0) :: rest) cands dups =
              grouper rest cands (setA dups h0 [c0, f0]) := by simp [grouper, hd, hc]
          rw [e1, ih, getA_setA_ne _ _ _ _ hne, hps]
        | none =>
          have e1 : grouper ((h0, f0) :: rest) cands dups =
              grouper rest (setA cands h0 f0) dups := by simp [grouper, hd, hc]
          rw [e1, ih, getA_setA_ne _ _ _ _ hne, hps]

/-- Lookup characterization for a whole pass started from empty
dictionaries: a digest maps to all its paths in arrival order when it
occurred at least twice, and is absent otherwise. -/
theorem grouper_run_getA (ps : List (D × String)) (h : D) :
    getA (grouper ps [] []) h =
      if (pathsFor h ps).length ≤ 1 then none else some (pathsFor h ps) := by
  rw [grouper_getA]
  simp [getA, lookSpec]

theorem grouper_keys_nodup (ps : List (D × String)) :
    ∀ (cands : List (D × String)) (dups : List (D × List String)),
      (keysA dups).Nodup → (keysA (grouper ps cands dups)).Nodup := by
  induction ps with
  | nil => intro cands dups hnd; simpa [grouper] using hnd
  | cons p rest ih =>
    intro cands dups hnd
    obtain ⟨h0, f0⟩ := p
    cases hd : getA dups h0 with
    | some g0 =>
      rw [show grouper ((h0, f0) :: rest) cands dups =
          grouper rest cands (setA dups h0 (g0 ++ [f0])) by simp [grouper, hd]]
      have hmem : h0 ∈ keysA dups := by
        by_contra hmem
        rw [(getA_eq_none_iff dups h0).mpr hmem] at hd
        exact Option.noConfusion hd
      exact ih _ _ (by rw [keysA_setA_of_mem _ _ _ hmem]; exact hnd)
    | none =>
      cases hc : getA cands h0 with
      | some c0 =>
        rw [show grouper ((h0, f0) :: rest) cands dups =
            grouper rest cands (setA dups h0 [c0, f0]) by simp [grouper, hd, hc]]
        have hmem : h0 ∉ keysA dups := (getA_eq_none_iff dups h0).mp hd
        refine ih _ _ ?_
        rw [keysA_setA_of_not_mem _ _ _ hmem]
        rw [List.nodup_append]
        refine ⟨hnd, List.nodup_singleton h0, ?_⟩
        intro a ha hb
        exact hmem (by rwa [List.mem_singleton.mp hb] at ha)
      | none =>
        rw [show grouper ((h0, f0) :: rest) cands dups =
            grouper rest (setA cands h0 f0) dups by simp [grouper, hd, hc]]
        exact ih _ _ hnd

end Grouping

section Hashing

theorem chunked_flatten (c : List Nat) : (chunked c).flatten = c := by
  induction c using chunked.induct with
  | case1 => rw [chunked.eq_def]; simp
  | case2 c hc ih =>
    rw [chunked.eq_def]
    simp only [hc, ite_false, if_neg]
    rw [List.flatten_cons, ih]
    exact List.take_append_drop 4096 c

theorem chunked_blocks (c : List Nat) : ∀ b ∈ chunked c, b.length ≤ 4096 ∧ b ≠ [] := by
  induction c using chunked.induct with
  | case1 => rw [chunked.eq_def]; simp
  | case2 c hc ih =>
    intro b hb
    rw [chunked.eq_def] at hb
    simp only [hc, ite_false, if_neg] at hb
    rcases List.mem_cons.mp hb with h1 | h1
    · subst h1
      refine ⟨List.length_take_le 4096 c, ?_⟩
      have hpos : 0 < c.length := List.length_pos.mpr hc
      have h2 : 0 < (c.take 4096).length := by
        simp [List.length_take]
        omega
      exact List.length_pos.mp h2
    · exact ih b h1

theorem hasher_ok {E : Type} (fs : String → Option (List Nat)) (s : Nat)
    (hf : List Nat → E) (files : List String)
    (hread : ∀ f ∈ files, (fs f).isSome) :
    hasher fs s hf files = .ok (hasherPairs fs hf s files) := by
  induction files with
  | nil => rfl
  | cons f rest ih =>
    obtain ⟨c, hc⟩ := Option.isSome_iff_exists.mp (hread f (List.mem_cons_self f rest))
    have ih' := ih (fun g hg => hread g (List.mem_cons_of_mem f hg))
    simp only [hasher, hc, ih', hasherPairs, List.map_cons]
    simp [digestOf, hc]

theorem hasher_err {E : Type} (fs : String → Option (List Nat)) (s : Nat)
    (hf : List Nat → E) (files : List String)
    (hbad : ∃ f ∈ files, fs f = none) :
    ∃ e ∈ files, fs e = none ∧ hasher fs s hf files = .error e := by
  induction files with
  | nil => simp at hbad
  | cons f rest ih =>
    cases hc : fs f with
    | none => exact ⟨f, List.mem_cons_self f rest, hc, by simp [hasher, hc]⟩
    | some c =>
      have hbad' : ∃ g ∈ rest, fs g = none := by
        rcases hbad with ⟨g, hg, hgn⟩
        rcases List.mem_cons.mp hg with h1 | h1
        · rw [h1] at hgn
          rw [hgn] at hc
          exact Option.noConfusion hc
        · exact ⟨g, h1, hgn⟩
      obtain ⟨e, he, hen, herr⟩ := ih hbad'
      exact ⟨e, List.mem_cons_of_mem f he, hen, by simp [hasher, hc, herr]⟩

end Hashing

section Passes

theorem mem_sameDigest (fs : String → Option (List Nat)) (hf : List Nat → D)
    (s : Nat) (h : D) (files : List String) (p : String) :
    p ∈ sameDigest fs hf s h files ↔ p ∈ files ∧ digestOf fs hf s p = h := by
  simp [sameDigest, List.mem_filter]

theorem pathsFor_hasherPairs (fs : String → Option (List Nat)) (hf : List Nat → D)
    (s : Nat) (h : D) (files : List String) :
    pathsFor h (hasherPairs fs hf s files) = sameDigest fs hf s h files := by
  induction files with
  | nil => rfl
  | cons f rest ih =>
    by_cases hfh : digestOf fs hf s f = h <;>
      simp [hasherPairs, pathsFor_cons, sameDigest, List.filter_cons, hfh] <;>
      simpa [hasherPairs, sameDigest] using ih

theorem duplicates_ok (fs : String → Option (List Nat)) (s : Nat)
    (hf : List Nat → D) (files : List String)
    (hread : ∀ f ∈ files, (fs f).isSome) :
    duplicates fs s hf files = .ok (grouper (hasherPairs fs hf s files) [] []) := by
  rw [duplicates, hasher_ok fs s hf files hread]

theorem duplicates_getA (fs : String → Option (List Nat)) (s : Nat)
    (hf : List Nat → D) (files : List String) (d : List (D × List String))
    (hread : ∀ f ∈ files, (fs f).isSome)
    (hok : duplicates fs s hf files = .ok d) (h : D) :
    getA d h = if (sameDigest fs hf s h files).length ≤ 1 then none
      else some (sameDigest fs hf s h files) := by
  rw [duplicates_ok fs s hf files hread] at hok
  have hd : d = grouper (hasherPairs fs hf s files) [] [] := by
    injection hok.symm
  rw [hd, grouper_run_getA, pathsFor_hasherPairs]

theorem duplicates_keys_nodup (fs : String → Option (List Nat)) (s : Nat)
    (hf : List Nat → D) (files : List String) (d : List (D × List String))
    (hread : ∀ f ∈ files, (fs f).isSome)
    (hok : duplicates fs s hf files = .ok d) : (keysA d).Nodup := by
  rw [duplicates_ok fs s hf files hread] at hok
  have hd : d = grouper (hasherPairs fs hf s files) [] [] := by
    injection hok.symm
  rw [hd]
  exact grouper_keys_nodup _ _ _ (by simp [keysA])

theorem duplicates_group_eq (fs : String → Option (List Nat)) (s : Nat)
    (hf : List Nat → D) (files : List String) (d : List (D × List String))
    (hread : ∀ f ∈ files, (fs f).isSome)
    (hok : duplicates fs s hf files = .ok d) (h : D) (g : List String)
    (hm : (h, g) ∈ d) :
    g = sameDigest fs hf s h files ∧ 2 ≤ (sameDigest fs hf s h files).length := by
  have hget : getA d h = some g :=
    getA_of_mem_nodup d h g (duplicates_keys_nodup fs s hf files d hread hok) hm
  rw [duplicates_getA fs s hf files d hread hok h] at hget
  by_cases hlen : (sameDigest fs hf s h files).length ≤ 1
  · rw [if_pos hlen] at hget
    exact Option.noConfusion hget
  · rw [if_neg hlen] at hget
    exact ⟨(Option.some.injEq .. ▸ hget).symm, by omega⟩

theorem mem_flattenG (d : List (D × List String)) (p : String) :
    p ∈ flattenG d ↔ ∃ h g, (h, g) ∈ d ∧ p ∈ g := by
  simp only [flattenG, List.mem_flatten, List.mem_map]
  constructor
  · rintro ⟨l, ⟨⟨h, g⟩, hm, hl⟩, hp⟩
    exact ⟨h, g, hm, by rwa [← hl] at hp⟩
  · rintro ⟨h, g, hm, hp⟩
    exact ⟨g, ⟨(h, g), hm, rfl⟩, hp⟩

theorem flattenG_subset (fs : String → Option (List Nat)) (s : Nat)
    (hf : List Nat → D) (files : List String) (d : List (D × List String))
    (hread : ∀ f ∈ files, (fs f).isSome)
    (hok : duplicates fs s hf files = .ok d) :
    ∀ p ∈ flattenG d, p ∈ files := by
  intro p hp
  obtain ⟨h, g, hm, hpg⟩ := (mem_flattenG d p).mp hp
  have hg := (duplicates_group_eq fs s hf files d hread hok h g hm).1
  rw [hg] at hpg
  exact ((mem_sameDigest fs hf s h files p).mp hpg).1

theorem group_mem_digest (fs : String → Option (List Nat)) (s : Nat)
    (hf : List Nat → D) (files : List String) (d : List (D × List String))
    (hread : ∀ f ∈ files, (fs f).isSome)
    (hok : duplicates fs s hf files = .ok d) (h : D) (g : List String)
    (hget : getA d h = some g) (p : String) (hp : p ∈ g) :
    digestOf fs hf s p = h ∧ p ∈ files := by
  have hg := (duplicates_group_eq fs s hf files d hread hok h g
    (getA_mem d h g hget)).1
  rw [hg] at hp
  obtain ⟨h1, h2⟩ := (mem_sameDigest fs hf s h files p).mp hp
  exact ⟨h2, h1⟩

theorem two_le_length_of_two_mem {l : List String} {a b : String}
    (ha : a ∈ l) (hb : b ∈ l) (hab : a ≠ b) : 2 ≤ l.length := by
  match l with
  | [] => simp at ha
  | [x] =>
    rw [List.mem_singleton] at ha hb
    exact absurd (ha.trans hb.symm) hab
  | x :: y :: t => simp [Nat.succ_le_succ_iff]

theorem pass_together (fs : String → Option (List Nat)) (s : Nat)
    (hf : List Nat → D) (files : List String) (d : List (D × List String))
    (hread : ∀ f ∈ files, (fs f).isSome)
    (hok : duplicates fs s hf files = .ok d) (a b : String)
    (ha : a ∈ files) (hb : b ∈ files) (hab : a ≠ b)
    (hd : digestOf fs hf s a = digestOf fs hf s b) :
    getA d (digestOf fs hf s a) = some (sameDigest fs hf s (digestOf fs hf s a) files)
      ∧ a ∈ sameDigest fs hf s (digestOf fs hf s a) files
      ∧ b ∈ sameDigest fs hf s (digestOf fs hf s a) files
      ∧ a ∈ flattenG d ∧ b ∈ flattenG d := by
  set h := digestOf fs hf s a with hdef
  have hma : a ∈ sameDigest fs hf s h files :=
    (mem_sameDigest fs hf s h files a).mpr ⟨ha, hdef.symm⟩
  have hmb : b ∈ sameDigest fs hf s h files :=
    (mem_sameDigest fs hf s h files b).mpr ⟨hb, hd.symm⟩
  have hlen : 2 ≤ (sameDigest fs hf s h files).length :=
    two_le_length_of_two_mem hma hmb hab
  have hget : getA d h = some (sameDigest fs hf s h files) := by
    rw [duplicates_getA fs s hf files d hread hok h, if_neg (by omega)]
  have hmem : (h, sameDigest fs hf s h files) ∈ d := getA_mem _ _ _ hget
  exact ⟨hget, hma, hmb,
    (mem_flattenG d a).mpr ⟨h, _, hmem, hma⟩,
    (mem_flattenG d b).mpr ⟨h, _, hmem, hmb⟩⟩

theorem count_flattenG_le : ∀ (d : List (D × List String)) (k : D) (c : Nat)
    (p : String), (keysA d).Nodup →
    (∀ h g, (h, g) ∈ d → g.count p ≤ if h = k then c else 0) →
    (flattenG d).count p ≤ c
  | [], _, _, _, _, _ => by simp [flattenG]
  | (h, g) :: t, k, c, p, hkeys, hbound => by
    have hsplit : h ∉ List.map Prod.fst t ∧ (List.map Prod.fst t).Nodup := by
      simpa [keysA] using hkeys
    have hkt : (keysA t).Nodup := by
      simpa [keysA] using hsplit.2
    have hflat : flattenG ((h, g) :: t) = g ++ flattenG t := rfl
    rw [hflat, List.count_append]
    by_cases hk : h = k
    · subst hk
      have hg : g.count p ≤ c := by
        simpa using hbound h g (List.mem_cons_self _ _)
      have ht : (flattenG t).count p ≤ 0 := by
        refine count_flattenG_le t h 0 p hkt ?_
        intro h' g' hm
        have hne : h' ≠ h := by
          intro he
          subst he
          exact hsplit.1 (by simpa using List.mem_map_of_mem Prod.fst hm)
        simpa [hne] using hbound h' g' (List.mem_cons_of_mem _ hm)
      omega
    · have hg : g.count p ≤ 0 := by
        simpa [hk] using hbound h g (List.mem_cons_self _ _)
      have ht : (flattenG t).count p ≤ c :=
        count_flattenG_le t k c p hkt
          (fun h' g' hm => hbound h' g' (List.mem_cons_of_mem _ hm))
      omega

theorem flattenG_nodup (fs : String → Option (List Nat)) (s : Nat)
    (hf : List Nat → D) (files : List String) (d : List (D × List String))
    (hread : ∀ f ∈ files, (fs f).isSome) (hnd : files.Nodup)
    (hok : duplicates fs s hf files = .ok d) : (flattenG d).Nodup := by
  rw [List.nodup_iff_count_le_one]
  intro p
  refine count_flattenG_le d (digestOf fs hf s p) 1 p
    (duplicates_keys_nodup fs s hf files d hread hok) ?_
  intro h g hm
  have hg := (duplicates_group_eq fs s hf files d hread hok h g hm).1
  by_cases hk : h = digestOf fs hf s p
  · rw [if_pos hk, hg]
    calc (sameDigest fs hf s h files).count p
        ≤ files.count p := (List.filter_sublist files).count_le p
      _ ≤ 1 := List.nodup_iff_count_le_one.mp hnd p
  · rw [if_neg hk]
    have hnp : p ∉ g := by
      intro hp
      rw [hg] at hp
      exact hk ((mem_sameDigest fs hf s h files p).mp hp).2.symm
    simp [List.count_eq_zero.mpr hnp]

theorem getA_none_imp_nil (d : List (D × List String))
    (hall : ∀ h, getA d h = none) : d = [] := by
  match d with
  | [] => rfl
  | (h, g) :: t =>
    have := hall h
    simp [getA] at this

end Passes

section Walks

theorem leadsL_nil_pat (s : List Char) : leadsL [] s = true := by
  cases s <;> rfl

theorem occursIn_nil_pat (s : List Char) : occursIn [] s = true := by
  induction s with
  | nil => rfl
  | cons c cs ih => simp [occursIn, leadsL_nil_pat]

theorem leadsL_append (pat s t : List Char) (h : leadsL pat s = true) :
    leadsL pat (s ++ t) = true := by
  induction pat generalizing s with
  | nil => exact leadsL_nil_pat _
  | cons p ps ih =>
    cases s with
    | nil => simp [leadsL] at h
    | cons c cs =>
      rw [List.cons_append]
      simp [leadsL] at h ⊢
      exact ⟨h.1, ih cs h.2⟩

theorem occursIn_append (pat s t : List Char) (h : occursIn pat s = true) :
    occursIn pat (s ++ t) = true := by
  induction s with
  | nil =>
    cases pat with
    | nil => exact occursIn_nil_pat t
    | cons p ps => simp [occursIn, leadsL] at h
  | cons c cs ih =>
    rw [List.cons_append]
    simp only [occursIn, Bool.or_eq_true] at h ⊢
    rcases h with h1 | h1
    · exact Or.inl (by simpa using leadsL_append pat (c :: cs) t h1)
    · exact Or.inr (ih h1)

theorem substrB_extend (e d r : String) (h : substrB e d = true) :
    substrB e (d ++ r) = true := by
  rw [substrB, String.data_append]
  exact occursIn_append _ _ _ h

theorem substrB_nil_pat (s : String) : substrB "" s = true :=
  occursIn_nil_pat s.data

end Walks

section Pipeline

theorem dupfinderGen_ok (fs : String → Option (List Nat)) (hf : List Nat → D)
    (s1 s2 : Nat) (files : List String)
    (hread : ∀ f ∈ files, (fs f).isSome) :
    ∃ d1 d2 d3, duplicates fs s1 hf files = .ok d1
      ∧ (∀ f ∈ flattenG d1, f ∈ files)
      ∧ duplicates fs s2 hf (flattenG d1) = .ok d2
      ∧ (∀ f ∈ flattenG d2, f ∈ flattenG d1)
      ∧ duplicates fs 0 hf (flattenG d2) = .ok d3
      ∧ dupfinderGen fs hf s1 s2 files = .ok d3 := by
  have h1 := duplicates_ok fs s1 hf files hread
  have sub1 := flattenG_subset fs s1 hf files _ hread h1
  have hread1 : ∀ f ∈ flattenG (grouper (hasherPairs fs hf s1 files) [] []),
      (fs f).isSome := fun f hmem => hread f (sub1 f hmem)
  have h2 := duplicates_ok fs s2 hf _ hread1
  have sub2 := flattenG_subset fs s2 hf _ _ hread1 h2
  have hread2 : ∀ f ∈ flattenG (grouper (hasherPairs fs hf s2
      (flattenG (grouper (hasherPairs fs hf s1 files) [] []))) [] []),
      (fs f).isSome := fun f hmem => hread1 f (sub2 f hmem)
  have h3 := duplicates_ok fs 0 hf _ hread2
  exact ⟨_, _, _, h1, sub1, h2, sub2, h3, by simp [dupfinderGen, h1, h2, h3]⟩

theorem length_le_one_of_all_eq (l : List String) (hnd : l.Nodup)
    (hall : ∀ x ∈ l, ∀ y ∈ l, x = y) : l.length ≤ 1 := by
  match l with
  | [] => simp
  | [x] => simp
  | x :: y :: t =>
    exfalso
    have hxy : x = y := hall x (by simp) y (by simp)
    have hx : x ∉ y :: t := (List.nodup_cons.mp hnd).1
    exact hx (by simp [hxy])

end Pipeline

section Claims

/-- Claim C1: two enumerated files with byte-for-byte identical content
end up together in exactly one group of the final mapping returned by
the pipeline, for every choice of positive first- and second-pass
prefix lengths. -/
theorem claim_C1 (fs : String → Option (List Nat)) (hf : List Nat → D)
    (s1 s2 : Nat) (files : List String) (a b : String) (c : List Nat)
    (hs1 : 0 < s1) (hs2 : 0 < s2)
    (hread : ∀ f ∈ files, (fs f).isSome)
    (ha : a ∈ files) (hb : b ∈ files) (hab : a ≠ b)
    (hca : fs a = some c) (hcb : fs b = some c) :
    ∃ d h g, dupfinderGen fs hf s1 s2 files = .ok d ∧ getA d h = some g
      ∧ a ∈ g ∧ b ∈ g
      ∧ ∀ h' g', getA d h' = some g' → (a ∈ g' ∨ b ∈ g') → h' = h := by
  obtain ⟨d1, d2, d3, h1, sub1, h2, sub2, h3, hrun⟩ :=
    dupfinderGen_ok fs hf s1 s2 files hread
  have hdg : ∀ s, digestOf fs hf s a = digestOf fs hf s b := by
    intro s
    simp [digestOf, hca, hcb]
  have hread1 : ∀ f ∈ flattenG d1, (fs f).isSome :=
    fun f hm => hread f (sub1 f hm)
  have hread2 : ∀ f ∈ flattenG d2, (fs f).isSome :=
    fun f hm => hread1 f (sub2 f hm)
  have p1 := pass_together fs s1 hf files d1 hread h1 a b ha hb hab (hdg s1)
  have p2 := pass_together fs s2 hf (flattenG d1) d2 hread1 h2 a b
    p1.2.2.2.1 p1.2.2.2.2 hab (hdg s2)
  have p3 := pass_together fs 0 hf (flattenG d2) d3 hread2 h3 a b
    p2.2.2.2.1 p2.2.2.2.2 hab (hdg 0)
  refine ⟨d3, digestOf fs hf 0 a,
    sameDigest fs hf 0 (digestOf fs hf 0 a) (flattenG d2),
    hrun, p3.1, p3.2.1, p3.2.2.1, ?_⟩
  intro h' g' hget' hmem
  rcases hmem with hma | hmb
  · exact (group_mem_digest fs 0 hf (flattenG d2) d3 hread2 h3 h' g'
      hget' a hma).1.symm
  · exact ((group_mem_digest fs 0 hf (flattenG d2) d3 hread2 h3 h' g'
      hget' b hmb).1.symm).trans (hdg 0).symm

theorem claim_C1_witness :
    ∃ d h g, dupfinderGen fsTwin (id : List Nat → List Nat) 1 2 ["a", "b"] = .ok d
      ∧ getA d h = some g ∧ "a" ∈ g ∧ "b" ∈ g
      ∧ ∀ h' g', getA d h' = some g' → ("a" ∈ g' ∨ "b" ∈ g') → h' = h :=
  claim_C1 fsTwin id 1 2 ["a", "b"] "a" "b" [7] (by decide) (by decide)
    (by decide) (by decide) (by decide) (by decide) (by decide) (by decide)

/-- Claim C3 counterexample: with file `b` unreadable between readable
files `a` and `c` (where `a` and `c` have identical contents), the pass
does not continue over the remaining files — the whole `duplicates`
call and the whole `dupfinder` run abort with the raised error, so no
mapping at all is returned. -/
theorem claim_C3_counterexample :
    duplicates fsErr 4096 (id : List Nat → List Nat) ["a", "b", "c"]
        = .error ("b")
      ∧ dupfinder fsErr (id : List Nat → List Nat) ["a", "b", "c"]
        = .error ("b") :=
  ⟨rfl, rfl⟩

/-- Claim C3, amended: when opening or reading some file of the pass
fails, the exception propagates — the `duplicates` pass returns the
error instead of a mapping (the remaining files are not grouped), and
the whole `dupfinder` pipeline aborts with the same error. -/
theorem claim_C3 (fs : String → Option (List Nat)) (hf : List Nat → D)
    (s1 s2 : Nat) (files : List String) (f : String)
    (hmem : f ∈ files) (hnone : fs f = none) :
    ∃ e ∈ files, fs e = none ∧ duplicates fs s1 hf files = .error e
      ∧ dupfinderGen fs hf s1 s2 files = .error e := by
  obtain ⟨e, he, hen, herr⟩ := hasher_err fs s1 hf files ⟨f, hmem, hnone⟩
  have hdup : duplicates fs s1 hf files = .error e := by
    simp [duplicates, herr]
  exact ⟨e, he, hen, hdup, by simp [dupfinderGen, hdup]⟩

theorem claim_C3_witness :
    ∃ e ∈ ["a", "b"], fsErr e = none
      ∧ duplicates fsErr 1 (id : List Nat → List Nat) ["a", "b"] = .error e
      ∧ dupfinderGen fsErr (id : List Nat → List Nat) 1 2 ["a", "b"] = .error e :=
  claim_C3 fsErr id 1 2 ["a", "b"] "b" (by decide) (by decide)

/-- Claim C4: the pipeline is exactly three ordered passes at scan
sizes `SCANSIZE`, `100 * SCANSIZE` and `0`, each pass's input being the
flattened groups of the previous pass's mapping, and the returned value
being the third pass's mapping. -/
theorem claim_C4 (fs : String → Option (List Nat)) (hf : List Nat → D)
    (files : List String) :
    dupfinder fs hf files = runStages fs hf [SCANSIZE, 100 * SCANSIZE, 0] files := by
  cases h1 : duplicates fs SCANSIZE hf files with
  | error e => simp [dupfinder, dupfinderGen, runStages, h1]
  | ok d1 =>
    cases h2 : duplicates fs (100 * SCANSIZE) hf (flattenG d1) with
    | error e => simp [dupfinder, dupfinderGen, runStages, h1, h2]
    | ok d2 =>
      cases h3 : duplicates fs 0 hf (flattenG d2) with
      | error e => simp [dupfinder, dupfinderGen, runStages, h1, h2, h3]
      | ok d3 => simp [dupfinder, dupfinderGen, runStages, h1, h2, h3]

/-- Claim C5: grouping a `(digest, path)` sequence in arrival order
maps each digest that occurs at least twice to the list of all its
paths in first-seen order (so a promoted pair is `[stored candidate,
new path]` and later hits are appended), and omits every digest seen
only once. -/
theorem claim_C5 (ps : List (D × String)) (h : D) :
    getA (grouper ps [] []) h =
      if 2 ≤ (pathsFor h ps).length then some (pathsFor h ps) else none := by
  rw [grouper_run_getA]
  by_cases hl : (pathsFor h ps).length ≤ 1
  · rw [if_pos hl, if_neg (by omega)]
  · rw [if_neg hl, if_pos (by omega)]

/-- Claim C9: over pairwise-distinct readable input paths, each path
occurs in at most one group of the returned mapping and at most once
within it — the flattened mapping has no duplicates, and every group
list is duplicate-free. -/
theorem claim_C9 (fs : String → Option (List Nat)) (hf : List Nat → D)
    (s : Nat) (files : List String) (hnd : files.Nodup)
    (hread : ∀ f ∈ files, (fs f).isSome) :
    ∃ d, duplicates fs s hf files = .ok d ∧ (flattenG d).Nodup
      ∧ ∀ h g, getA d h = some g → g.Nodup := by
  have hok := duplicates_ok fs s hf files hread
  refine ⟨_, hok, flattenG_nodup fs s hf files _ hread hnd hok, ?_⟩
  intro h g hget
  have hg := (duplicates_group_eq fs s hf files _ hread hok h g
    (getA_mem _ _ _ hget)).1
  rw [hg]
  exact hnd.filter _

theorem claim_C9_witness :
    ∃ d, duplicates fsTwin 1 (id : List Nat → List Nat) ["a", "b"] = .ok d
      ∧ (flattenG d).Nodup ∧ ∀ h g, getA d h = some g → g.Nodup :=
  claim_C9 fsTwin id 1 ["a", "b"] (by decide) (by decide)

/-- Claim C2: two enumerated files agreeing on their first `SCANSIZE`
bytes but with different full contents are grouped together by the
first pass, yet are not together in any group of the final mapping,
provided the hash does not collide on the two full contents. -/
theorem claim_C2 (fs : String → Option (List Nat)) (hf : List Nat → D)
    (files : List String) (a b : String) (ca cb : List Nat)
    (hread : ∀ f ∈ files, (fs f).isSome)
    (ha : a ∈ files) (hb : b ∈ files) (hab : a ≠ b)
    (hca : fs a = some ca) (hcb : fs b = some cb)
    (hblock : ca.take SCANSIZE = cb.take SCANSIZE) (hdiff : ca ≠ cb)
    (hcoll : hf ca = hf cb → ca = cb) :
    (∃ d1 g1, duplicates fs SCANSIZE hf files = .ok d1
      ∧ getA d1 (digestOf fs hf SCANSIZE a) = some g1 ∧ a ∈ g1 ∧ b ∈ g1)
    ∧ ∃ d, dupfinder fs hf files = .ok d
      ∧ ∀ h g, getA d h = some g → ¬(a ∈ g ∧ b ∈ g) := by
  obtain ⟨d1, d2, d3, h1, sub1, h2, sub2, h3, hrun⟩ :=
    dupfinderGen_ok fs hf SCANSIZE (100 * SCANSIZE) files hread
  have hdg1 : digestOf fs hf SCANSIZE a = digestOf fs hf SCANSIZE b := by
    simp only [digestOf, hca, hcb, Option.getD_some]
    rw [fileDigest, fileDigest, if_pos (by norm_num [SCANSIZE]),
      if_pos (by norm_num [SCANSIZE]), hblock]
  have hread1 : ∀ f ∈ flattenG d1, (fs f).isSome :=
    fun f hm => hread f (sub1 f hm)
  have hread2 : ∀ f ∈ flattenG d2, (fs f).isSome :=
    fun f hm => hread1 f (sub2 f hm)
  have p1 := pass_together fs SCANSIZE hf files d1 hread h1 a b ha hb hab hdg1
  refine ⟨⟨d1, _, h1, p1.1, p1.2.1, p1.2.2.1⟩, d3, ?_, ?_⟩
  · simpa [dupfinder] using hrun
  · rintro h g hget ⟨hma, hmb⟩
    have hda := (group_mem_digest fs 0 hf (flattenG d2) d3 hread2 h3
      h g hget a hma).1
    have hdb := (group_mem_digest fs 0 hf (flattenG d2) d3 hread2 h3
      h g hget b hmb).1
    have heq0 : fileDigest hf 0 ca = fileDigest hf 0 cb := by
      have := hda.trans hdb.symm
      simpa [digestOf, hca, hcb] using this
    have hfc : hf ca = hf cb := by
      simpa [fileDigest, chunked_flatten] using heq0
    exact hdiff (hcoll hfc)

theorem claim_C2_witness :
    (∃ d1 g1, duplicates fsLong SCANSIZE (id : List Nat → List Nat) ["a", "b"]
        = .ok d1
      ∧ getA d1 (digestOf fsLong id SCANSIZE ("a")) = some g1
      ∧ "a" ∈ g1 ∧ "b" ∈ g1)
    ∧ ∃ d, dupfinder fsLong (id : List Nat → List Nat) ["a", "b"] = .ok d
      ∧ ∀ h g, getA d h = some g → ¬("a" ∈ g ∧ "b" ∈ g) :=
  claim_C2 fsLong id ["a", "b"] "a" "b"
    (List.replicate 4097 0) (List.replicate 4098 0)
    (by decide) (by decide) (by decide) (by decide) rfl rfl
    (by
      simp only [SCANSIZE]
      rw [List.take_replicate, List.take_replicate]
      congr 1)
    (by
      intro h
      have hlen := congrArg List.length h
      rw [List.length_replicate, List.length_replicate] at hlen
      omega)
    (fun h => h)

/-- Claim C6: at scan size zero the hasher digests the whole contents,
read in blocks of at most 4096 bytes; at a nonzero scan size it digests
exactly the first `scansize` bytes actually read, so a short file is
digested over its full contents and the digest depends only on the
byte-prefix of the file. -/
theorem claim_C6 {E : Type} (hf : List Nat → E) (fs : String → Option (List Nat))
    (f : String) (c : List Nat) (s : Nat) (hc : fs f = some c) (hs : s ≠ 0) :
    fileDigest hf 0 c = hf c
    ∧ fileDigest hf s c = hf (c.take s)
    ∧ (c.length ≤ s → fileDigest hf s c = hf c)
    ∧ (∀ c', c.take s = c'.take s → fileDigest hf s c = fileDigest hf s c')
    ∧ hasher fs 0 hf [f] = .ok [(hf c, f)]
    ∧ hasher fs s hf [f] = .ok [(hf (c.take s), f)]
    ∧ (chunked c).flatten = c
    ∧ ∀ b ∈ chunked c, b.length ≤ 4096 := by
  refine ⟨by simp [fileDigest, chunked_flatten],
    by simp [fileDigest, hs],
    fun hlen => by simp [fileDigest, hs, List.take_of_length_le hlen],
    fun c' he => by simp [fileDigest, hs, he],
    by simp [hasher, hc, fileDigest, chunked_flatten],
    by simp [hasher, hc, fileDigest, hs],
    chunked_flatten c, fun b hb => (chunked_blocks c b hb).1⟩

theorem claim_C6_witness :
    fileDigest (id : List Nat → List Nat) 0 [1] = [1]
    ∧ fileDigest (id : List Nat → List Nat) 3 [1] = [1].take 3
    ∧ (([1] : List Nat).length ≤ 3 →
        fileDigest (id : List Nat → List Nat) 3 [1] = [1])
    ∧ (∀ c', ([1] : List Nat).take 3 = c'.take 3 →
        fileDigest (id : List Nat → List Nat) 3 [1]
          = fileDigest (id : List Nat → List Nat) 3 c')
    ∧ hasher fsErr 0 (id : List Nat → List Nat) ["a"] = .ok [([1], "a")]
    ∧ hasher fsErr 3 (id : List Nat → List Nat) ["a"] = .ok [([1].take 3, "a")]
    ∧ (chunked [1]).flatten = [1]
    ∧ ∀ b ∈ chunked [1], b.length ≤ 4096 :=
  claim_C6 id fsErr ("a") [1] 3 rfl (by decide)

/-- Claim C7: the exclusion check is a substring match on the whole
directory path, so once a directory path contains an exclusion string,
every directory path extending it matches as well; the entry of every
such directory contributes no files to the walk output, and every path
the enumeration does yield comes from a directory the guard cleared. -/
theorem claim_C7 (walkOut : List (String × List String × List String))
    (excl : List String) (isfile : String → Bool) (e d : String)
    (he : e ∈ excl) (hd : substrB e d = true) :
    (∀ dp dns fns, (dp, dns, fns) ∈ walkOut → (∃ r, dp = d ++ r) →
        entryFiles (some excl) isfile (dp, dns, fns) = [])
    ∧ ∀ p, p ∈ filewalker walkOut (some excl) isfile →
        ∃ dp dns fns f, (dp, dns, fns) ∈ walkOut ∧ f ∈ fns ∧ p = pjoin dp f
          ∧ excludeMatches (some excl) dp = false := by
  constructor
  · rintro dp dns fns hm ⟨r, hr⟩
    have hsub : substrB e dp = true := by
      rw [hr]
      exact substrB_extend e d r hd
    have hmatch : excludeMatches (some excl) dp = true := by
      cases excl with
      | nil => simp at he
      | cons x t =>
        simp [excludeMatches, List.any_eq_true]
        rcases List.mem_cons.mp he with he1 | he1
        · exact Or.inl (he1 ▸ hsub)
        · exact Or.inr ⟨e, he1, hsub⟩
    simp [entryFiles, hmatch]
  · intro p hp
    simp only [filewalker, List.mem_flatten, List.mem_map] at hp
    obtain ⟨l, ⟨ent, hent, hl⟩, hpl⟩ := hp
    obtain ⟨dp, dns, fns⟩ := ent
    rw [← hl] at hpl
    cases hEM : excludeMatches (some excl) dp with
    | true => simp [entryFiles, hEM] at hpl
    | false =>
      simp only [entryFiles, hEM, Bool.false_eq_true, if_false,
        List.mem_filter, List.mem_map] at hpl
      obtain ⟨⟨f, hfm, hpj⟩, _⟩ := hpl
      exact ⟨dp, dns, fns, f, hent, hfm, hpj.symm, hEM⟩

theorem claim_C7_witness :
    (∀ dp dns fns, (dp, dns, fns) ∈ walkW → (∃ r, dp = "x" ++ r) →
        entryFiles (some ["x"]) (fun _ => true) (dp, dns, fns) = [])
    ∧ ∀ p, p ∈ filewalker walkW (some ["x"]) (fun _ => true) →
        ∃ dp dns fns f, (dp, dns, fns) ∈ walkW ∧ f ∈ fns ∧ p = pjoin dp f
          ∧ excludeMatches (some ["x"]) dp = false :=
  claim_C7 walkW ["x"] (fun _ => true) "x" "x" (by decide) (by decide)

/-- Claim C8: a pass over no files returns the empty mapping, a pass in
which all digests are pairwise distinct returns the empty mapping, and
once any pass of the pipeline returns an empty mapping the pipeline's
final result is the empty mapping. -/
theorem claim_C8 (fs : String → Option (List Nat)) (hf : List Nat → D)
    (s s1 s2 : Nat) (files : List String)
    (hread : ∀ f ∈ files, (fs f).isSome) (hnd : files.Nodup)
    (hdist : ∀ x ∈ files, ∀ y ∈ files, x ≠ y →
      digestOf fs hf s x ≠ digestOf fs hf s y) :
    duplicates fs s hf ([] : List String) = .ok []
    ∧ duplicates fs s hf files = .ok []
    ∧ (∀ files', duplicates fs s1 hf files' = .ok [] →
        dupfinderGen fs hf s1 s2 files' = .ok [])
    ∧ ∀ files' d1, duplicates fs s1 hf files' = .ok d1 →
        duplicates fs s2 hf (flattenG d1) = .ok [] →
        dupfinderGen fs hf s1 s2 files' = .ok [] := by
  refine ⟨rfl, ?_, ?_, ?_⟩
  · rw [duplicates_ok fs s hf files hread]
    have hnil : grouper (hasherPairs fs hf s files) [] [] = [] := by
      apply getA_none_imp_nil
      intro h
      rw [grouper_run_getA, pathsFor_hasherPairs]
      have hle : (sameDigest fs hf s h files).length ≤ 1 := by
        apply length_le_one_of_all_eq _ (hnd.filter _)
        intro x hx y hy
        obtain ⟨hxf, hxd⟩ := (mem_sameDigest fs hf s h files x).mp hx
        obtain ⟨hyf, hyd⟩ := (mem_sameDigest fs hf s h files y).mp hy
        by_contra hxy
        exact hdist x hxf y hyf hxy (hxd.trans hyd.symm)
      rw [if_pos hle]
    rw [hnil]
  · intro files' hemp
    have e2 : duplicates fs s2 hf (flattenG ([] : List (D × List String)))
        = .ok [] := rfl
    have e0 : duplicates fs 0 hf (flattenG ([] : List (D × List String)))
        = .ok [] := rfl
    simp [dupfinderGen, hemp, e2, e0]
  · intro files' d1 h1 hemp2
    have e0 : duplicates fs 0 hf (flattenG ([] : List (D × List String)))
        = .ok [] := rfl
    simp [dupfinderGen, h1, hemp2, e0]

theorem claim_C8_witness :
    duplicates fsDiff 1 (id : List Nat → List Nat) ([] : List String) = .ok []
    ∧ duplicates fsDiff 1 (id : List Nat → List Nat) ["a", "b"] = .ok []
    ∧ (∀ files', duplicates fsDiff 1 (id : List Nat → List Nat) files' = .ok [] →
        dupfinderGen fsDiff (id : List Nat → List Nat) 1 2 files' = .ok [])
    ∧ ∀ files' d1, duplicates fsDiff 1 (id : List Nat → List Nat) files' = .ok d1 →
        duplicates fsDiff 2 (id : List Nat → List Nat) (flattenG d1) = .ok [] →
        dupfinderGen fsDiff (id : List Nat → List Nat) 1 2 files' = .ok [] :=
  claim_C8 fsDiff id 1 1 2 ["a", "b"] (by decide) (by decide) (by decide)

/-- Claim C10: a `None` or empty exclusion list is falsy and disables
filtering, so every regular file of the walk is yielded, while any
exclusion list containing the empty string matches every directory path
and nothing is yielded at all. -/
theorem claim_C10 (walkOut : List (String × List String × List String))
    (isfile : String → Bool) :
    filewalker walkOut none isfile = allFiles walkOut isfile
    ∧ filewalker walkOut (some []) isfile = allFiles walkOut isfile
    ∧ ∀ es, "" ∈ es → filewalker walkOut (some es) isfile = [] := by
  refine ⟨?_, ?_, ?_⟩
  · induction walkOut with
    | nil => rfl
    | cons ent t ih =>
      obtain ⟨dp, dns, fns⟩ := ent
      have h1 : filewalker ((dp, dns, fns) :: t) none isfile =
          entryFiles none isfile (dp, dns, fns) ++ filewalker t none isfile := rfl
      have h2 : allFiles ((dp, dns, fns) :: t) isfile =
          (fns.map (fun f => pjoin dp f)).filter isfile ++ allFiles t isfile := rfl
      rw [h1, h2, ih]
      congr 1
  · induction walkOut with
    | nil => rfl
    | cons ent t ih =>
      obtain ⟨dp, dns, fns⟩ := ent
      have h1 : filewalker ((dp, dns, fns) :: t) (some []) isfile =
          entryFiles (some []) isfile (dp, dns, fns)
            ++ filewalker t (some []) isfile := rfl
      have h2 : allFiles ((dp, dns, fns) :: t) isfile =
          (fns.map (fun f => pjoin dp f)).filter isfile ++ allFiles t isfile := rfl
      rw [h1, h2, ih]
      congr 1
  · intro es hes
    induction walkOut with
    | nil => rfl
    | cons ent t ih =>
      obtain ⟨dp, dns, fns⟩ := ent
      have h1 : filewalker ((dp, dns, fns) :: t) (some es) isfile =
          entryFiles (some es) isfile (dp, dns, fns)
            ++ filewalker t (some es) isfile := rfl
      rw [h1, ih]
      have hm : excludeMatches (some es) dp = true := by
        cases es with
        | nil => simp at hes
        | cons x r =>
          simp [excludeMatches, List.any_eq_true]
          rcases List.mem_cons.mp hes with he1 | he1
          · exact Or.inl (he1 ▸ substrB_nil_pat dp)
          · exact Or.inr ⟨"", he1, substrB_nil_pat dp⟩
      simp [entryFiles, hm]

theorem claim_C10_witness :
    filewalker walkW none (fun _ => true) = allFiles walkW (fun _ => true)
    ∧ filewalker walkW (some []) (fun _ => true) = allFiles walkW (fun _ => true)
    ∧ filewalker walkW (some ["y", ""]) (fun _ => true) = [] :=
  ⟨(claim_C10 walkW (fun _ => true)).1,
    (claim_C10 walkW (fun _ => true)).2.1,
    (claim_C10 walkW (fun _ => true)).2.2 ["y", ""] (by decide)⟩

end Claims

end DupFind
